import Mathlib

/-!
Shallow embedding of the sitescan repository (Go) in Lean 4.

The embedding follows `sitescan.go`, `writable/writable.go` and
`webhandler/webhandler.go`:

* Go strings are Lean `String`s; the Go helpers `strings.HasSuffix`,
  `strings.HasPrefix` and `strings.TrimPrefix` are embedded on the
  underlying character lists (for the ASCII separators used by the
  program, byte-wise and character-wise suffix tests coincide).
* Go maps built by the walkers are embedded as association lists in
  insertion order (`m[k] = v` appends; key order of the underlying Go
  map is immaterial because `compareMaps` sorts the keys).
* `log.Fatal` / `os.Exit` are embedded as `Except` error results.
* External I/O (HTTP fetches, the filesystem) is embedded as explicit
  oracle parameters describing what each call would return.
-/

namespace Sitescan

/-- Embedding of Go `strings.HasSuffix s suffix`. -/
def goHasSuffix (s suffix : String) : Bool :=
  suffix.data.isSuffixOf s.data

/-- Embedding of Go `strings.HasPrefix s pre`. -/
def goHasPrefix (s pre : String) : Bool :=
  pre.data.isPrefixOf s.data

/-- Embedding of Go `strings.TrimPrefix s pre`. -/
def goTrimPrefix (s pre : String) : String :=
  if pre.data.isPrefixOf s.data then ⟨s.data.drop pre.data.length⟩ else s

/-- `dlSuffix` from sitescan.go: the temporary-download file suffix. -/
def dlSuffix : String := ".sitescandl"

/-- `ignoreThese` from sitescan.go: anchor texts that never become map
entries (only key membership is ever used, so the Go map's values are
dropped). -/
def ignoreThese : List String :=
  ["Name", "Last modified", "Size", "Description", "Parent Directory",
   "Type", "..", "../"]

/-- A site map: association list in insertion order (Go `map[string]string`). -/
abbrev SiteMap := List (String × String)

/-- Key membership test for a Go map (`_, exists := m[k]`). -/
def containsKey (m : SiteMap) (k : String) : Bool :=
  m.any (fun kv => kv.1 == k)

/-- Embedding of `compareMaps` (sitescan.go:645-671).  The Go map's
iteration order is unspecified; the function first sorts the keys
(`sort.Strings`), so the embedding sorts the insertion-order key list.
`suppress` is the package-level flag read inside the loop. -/
def compareMaps (suppress : Bool) (sm1 sm2 : SiteMap) : List String :=
  let keys := List.insertionSort (fun a b : String => a ≤ b) (sm1.map Prod.fst)
  keys.foldl
    (fun filelist k =>
      if containsKey sm2 k then filelist
      else if goHasSuffix k "/" then
        (if !suppress then filelist ++ [k] else filelist)
      else filelist ++ [k])
    []

theorem foldl_if_append (p : String → Bool) :
    ∀ (l acc : List String),
      l.foldl (fun fl k => if p k then fl ++ [k] else fl) acc
        = acc ++ l.filter p := by
  intro l
  induction l with
  | nil => intro acc; simp
  | cons a l ih =>
    intro acc
    by_cases h : p a <;> simp [List.foldl_cons, h, ih]

theorem compareMaps_eq_filter (suppress : Bool) (sm1 sm2 : SiteMap) :
    compareMaps suppress sm1 sm2
      = (List.insertionSort (fun a b : String => a ≤ b)
          (sm1.map Prod.fst)).filter
          (fun k => !containsKey sm2 k && (!goHasSuffix k "/" || !suppress)) := by
  unfold compareMaps
  rw [show
      (fun (filelist : List String) (k : String) =>
        if containsKey sm2 k then filelist
        else if goHasSuffix k "/" then
          (if !suppress then filelist ++ [k] else filelist)
        else filelist ++ [k])
      = (fun fl k =>
          if (!containsKey sm2 k && (!goHasSuffix k "/" || !suppress)) then
            fl ++ [k]
          else fl) from ?_]
  · exact foldl_if_append _ _ []
  · funext fl k
    by_cases h1 : containsKey sm2 k <;>
      by_cases h2 : goHasSuffix k "/" <;>
        cases suppress <;> simp [h1, h2]

theorem compareMaps_false_eq (A B : SiteMap) :
    compareMaps false A B
      = (List.insertionSort (fun a b : String => a ≤ b)
          (A.map Prod.fst)).filter (fun k => !containsKey B k) := by
  rw [compareMaps_eq_filter]
  congr 1
  funext k
  cases h : containsKey B k <;> simp [h]

/-- C1 — For every pair of completed location maps A and B, the diff
operation (`compareMaps`) with suppression off returns exactly the
lexicographically sorted list of keys of A that are not keys of B (it is
sorted under the string order and is a permutation of the key list of A
filtered to the keys absent from B); with suppression on it returns that
same list with every name ending in the trailing separator "/" removed. -/
theorem compareMaps_diff (A B : SiteMap) :
    List.Sorted (fun a b : String => a ≤ b) (compareMaps false A B)
    ∧ List.Perm (compareMaps false A B)
        ((A.map Prod.fst).filter (fun k => !containsKey B k))
    ∧ compareMaps true A B
        = (compareMaps false A B).filter (fun k => !goHasSuffix k "/") := by
  refine ⟨?_, ?_, ?_⟩
  · rw [compareMaps_false_eq]
    exact List.Pairwise.sublist (List.filter_sublist _)
      (List.sorted_insertionSort _ _)
  · rw [compareMaps_false_eq]
    exact (List.perm_insertionSort
      (fun a b : String => a ≤ b) (A.map Prod.fst)).filter _
  · rw [compareMaps_eq_filter, compareMaps_false_eq, List.filter_filter]
    congr 1
    funext k
    cases h1 : containsKey B k <;> cases h2 : goHasSuffix k "/" <;> simp [h1, h2]

/-! ## HTTP walker (`walkLink`, sitescan.go:261-309)

The HTTP layer is embedded as an oracle: for each URL the oracle says
what `webhandler.HTTPHandler` followed by goquery's anchor extraction
would produce — a transport error (`err != nil`), a nil response, or a
page with a status code and the list of `(anchor text, href attribute)`
pairs (an anchor without an `href` attribute carries `none`). -/

/-- What one HTTP listing fetch returns (the interface boundary of
`webhandler.HTTPHandler` + goquery `doc.Find("a")`). -/
inductive Fetch where
  | transport
  | nilResp
  | page (status : Nat) (anchors : List (String × Option String))
deriving DecidableEq

/-- How a walk run ends abnormally: `fatal` embeds `log.Fatal`, `fuel`
marks recursion-depth exhaustion of the embedding (never hit on the
finite trees considered here). -/
inductive WFail where
  | fatal
  | fuel
deriving DecidableEq

/-- Walker state: the site map in insertion order plus the visit counter. -/
abbrev WalkSt := SiteMap × Nat

/-- The canonical-name computation for one anchor (sitescan.go:290-295):
`ourname := currentName + text`, and one trailing "/" is appended when
the href ends in "/" and `ourname` does not. -/
def childName (currentName text href : String) : String :=
  let ourname := currentName ++ text
  if goHasSuffix href "/" && !goHasSuffix ourname "/" then ourname ++ "/"
  else ourname

/-- Embedding of `walkLink` (sitescan.go:261-309), structured over fuel
(recursion depth).  A transport error or nil response is `log.Fatal`
(sitescan.go:268-273); anchors are processed in order: anchor texts in
`ignoreThese` are skipped, anchors without an href are skipped, otherwise
the counter is incremented, the `(childName, url ++ href)` pair is
inserted, and when the href ends in "/" the walker recurses into the
child before the next sibling.  A fatal error inside the recursion
aborts the whole walk. -/
def walkLink (oracle : String → Fetch) :
    Nat → String → String → String → WalkSt → Except WFail WalkSt
  | 0, _, _, _, _ => .error .fuel
  | Nat.succ fuel, urlpre, url, currentName, st =>
    match oracle (urlpre ++ url) with
    | .transport => .error .fatal
    | .nilResp => .error .fatal
    | .page _ anchors =>
      anchors.foldl
        (fun acc a =>
          match acc with
          | .error e => .error e
          | .ok st =>
            if ignoreThese.contains a.1 then .ok st
            else
              match a.2 with
              | none => .ok st
              | some href =>
                let st : WalkSt := (st.1, st.2 + 1)
                let ourname := childName currentName a.1 href
                let oururl := url ++ href
                let st : WalkSt := (st.1 ++ [(ourname, oururl)], st.2)
                if goHasSuffix href "/" then
                  walkLink oracle fuel urlpre oururl ourname st
                else .ok st)
        (.ok st)

/-- An oracle whose root URL answers with HTTP status 404 and an empty
body: `err` is nil and the response is non-nil, so `walkLink` parses the
(error-page) body as a listing instead of aborting. -/
def oracle404 : String → Fetch := fun _ => .page 404 []

/-- C3 counterexample — a non-2xx response (status 404) at the root
listing does not abort the crawl: `walkLink` returns normally with the
state unchanged, because the source never inspects the response status
code. -/
theorem walkLink_non2xx_not_fatal :
    walkLink oracle404 1 "http://x/" "" "" ([], 0) = .ok ([], 0) := by
  rfl

/-- C3 (amended) — a network transport error or a nil response on a
listing fetch is fatal to the whole crawl (the walk aborts with no
partial map); the response status code is never inspected, so any
response that arrives without a transport error — including non-2xx
statuses such as 403, 404 or 500 — is parsed as a listing and the crawl
continues. -/
theorem walkLink_fatal_policy (oracle : String → Fetch)
    (fuel : Nat) (urlpre url currentName : String) (st : WalkSt) :
    ((oracle (urlpre ++ url) = .transport ∨
        oracle (urlpre ++ url) = .nilResp) →
      walkLink oracle (fuel + 1) urlpre url currentName st
        = .error .fatal)
    ∧ (∀ status : Nat,
        oracle (urlpre ++ url) = .page status [] →
          walkLink oracle (fuel + 1) urlpre url currentName st = .ok st) := by
  constructor
  · intro h
    rcases h with h | h <;> simp [walkLink, h]
  · intro status h
    simp [walkLink, h]

/-- An oracle whose root URL fails at the transport level. -/
def oracleDown : String → Fetch := fun _ => .transport

/-- An oracle whose root URL answers status 500 with an empty body. -/
def oracle500 : String → Fetch := fun _ => .page 500 []

/-- C3 witness — concrete instances of both halves of the fatality
policy: a transport error is fatal, a 500 response is not. -/
theorem walkLink_fatal_policy_witness :
    walkLink oracleDown 1 "http://x/" "" "" ([], 0) = .error .fatal
    ∧ walkLink oracle500 1 "http://x/" "" "" ([], 0) = .ok ([], 0) :=
  ⟨(walkLink_fatal_policy oracleDown 0 "http://x/" "" "" ([], 0)).1
      (Or.inl rfl),
   (walkLink_fatal_policy oracle500 0 "http://x/" "" "" ([], 0)).2 500 rfl⟩

/-- The mock listing of end-to-end scenario 1 (sitescan_test.go,
`TestWalkLink`): the root has anchors `Name` (ignored), `dir1` with a
href ending in "/", `dir2/`, and `file3.mp4`; `dir1/` lists
`file11.mp3`; `dir2/` lists `file21.jpg`. -/
def scenario1 : String → Fetch := fun u =>
  if u = "http://x/" then
    .page 200 [("Name", some "name"), ("dir1", some "dir1/"),
               ("dir2/", some "dir2/"), ("file3.mp4", some "file3.mp4")]
  else if u = "http://x/dir1/" then .page 200 [("file11.mp3", some "file11.mp3")]
  else if u = "http://x/dir2/" then .page 200 [("file21.jpg", some "file21.jpg")]
  else .transport

/-- C4 — every child discovered by the HTTP walker gets canonical name
`parent ++ anchor text`, with one trailing separator appended when the
href ends in "/" and the computed name does not; crawling the mock
listing of scenario 1 yields exactly the map
`{"dir1/" ↦ "dir1/", "dir1/file11.mp3" ↦ "dir1/file11.mp3",
"dir2/" ↦ "dir2/", "dir2/file21.jpg" ↦ "dir2/file21.jpg",
"file3.mp4" ↦ "file3.mp4"}` with five counted entries. -/
theorem walkLink_scenario1 :
    (∀ currentName text href : String,
      childName currentName text href
        = if goHasSuffix href "/" && !goHasSuffix (currentName ++ text) "/"
          then currentName ++ text ++ "/" else currentName ++ text)
    ∧ walkLink scenario1 3 "http://x/" "" "" ([], 0)
        = .ok ([("dir1/", "dir1/"), ("dir1/file11.mp3", "dir1/file11.mp3"),
                ("dir2/", "dir2/"), ("dir2/file21.jpg", "dir2/file21.jpg"),
                ("file3.mp4", "file3.mp4")], 5) := by
  constructor
  · intro currentName text href
    rfl
  · rfl

/-! ## Filesystem walker (`walkFS`, sitescan.go:311-363)

`filepath.Walk` visits a directory tree; the tree (what the filesystem
would report) is embedded as a mutual inductive: a file, or a directory
with the outcome of reading it (`none` = readable, `some perm` =
permission error, `some other` = any other listing error) and its
children in directory order.  The embedding of Go's `filepath.Walk`
driver (`walkEntry`/`walkChildren`/`goWalk`) follows the Go standard
library: for a directory, the listing error is handed to the walk
function; `filepath.SkipDir` returned by the walk function for a
directory skips that directory's subtree, and `SkipDir` from a
directory child is swallowed by the parent loop. -/

/-- Classification of a directory-listing error, as tested by
`os.IsPermission` in sitescan.go:315. -/
inductive LErr where
  | perm
  | other
deriving DecidableEq

mutual
inductive Entry where
  | file (name : String)
  | dir (name : String) (lerr : Option LErr) (children : EntryList)
deriving DecidableEq
inductive EntryList where
  | nil
  | cons (e : Entry) (es : EntryList)
deriving DecidableEq
end

/-- Base name of an entry (Go `info.Name()`). -/
def Entry.name : Entry → String
  | .file n => n
  | .dir n _ _ => n

/-- Go `info.IsDir()`. -/
def Entry.isDir : Entry → Bool
  | .file _ => false
  | .dir _ _ _ => true

/-- Non-nil results the embedded walk function can return: Go's
`filepath.SkipDir` sentinel, or a real error that propagates. -/
inductive WErr where
  | skipDir
  | fail (e : LErr)
deriving DecidableEq

/-- Embedding of the closure passed to `filepath.Walk` in `walkFS`
(sitescan.go:313-357): a permission error skips the subtree and any
other error propagates; the base path itself is skipped; hidden
directories (`.`-prefixed base name) return `SkipDir`; hidden files are
skipped; otherwise the counter is incremented and the path relative to
`basepath + "/"` is inserted — with one trailing "/" appended to the key
for directories. -/
def walkFn (basepath path name : String) (isDir : Bool)
    (errIn : Option LErr) (st : WalkSt) : Option WErr × WalkSt :=
  match errIn with
  | some e => if e = .perm then (some .skipDir, st) else (some (.fail e), st)
  | none =>
    if path = basepath then (none, st)
    else if isDir && goHasPrefix name "." then (some .skipDir, st)
    else if !isDir && goHasPrefix name "." then (none, st)
    else
      let rel := goTrimPrefix path (basepath ++ "/")
      if isDir then (none, (st.1 ++ [(rel ++ "/", rel)], st.2 + 1))
      else (none, (st.1 ++ [(rel, rel)], st.2 + 1))

mutual
/-- Embedding of the Go standard library's `filepath.walk` applied to
the sitescan walk function: files call the walk function directly; for
directories the listing outcome is handed to the walk function first,
and on any non-nil outcome of either the directory is not descended
into. -/
def walkEntry (bp path : String) (e : Entry) (st : WalkSt) :
    Option WErr × WalkSt :=
  match e with
  | .file n => walkFn bp path n false none st
  | .dir n lerr cs =>
    match lerr, walkFn bp path n true lerr st with
    | none, (none, st2) => walkChildren bp path cs st2
    | _, r1 => r1
/-- The child loop of `filepath.walk`: each child is visited at
`path ++ "/" ++ name`; a `SkipDir` from a directory child is swallowed
and the loop continues; any other non-nil result stops the loop and
propagates. -/
def walkChildren (bp path : String) (cs : EntryList) (st : WalkSt) :
    Option WErr × WalkSt :=
  match cs with
  | .nil => (none, st)
  | .cons c rest =>
    match walkEntry bp (path ++ "/" ++ c.name) c st with
    | (none, st2) => walkChildren bp path rest st2
    | (some .skipDir, st2) =>
      if c.isDir then walkChildren bp path rest st2 else (some .skipDir, st2)
    | (some (.fail e), st2) => (some (.fail e), st2)
end

/-- `filepath.Walk`: runs the walk from the root and converts a
top-level `SkipDir` into success. -/
def goWalk (bp : String) (root : Entry) (st : WalkSt) :
    Option WErr × WalkSt :=
  match walkEntry bp bp root st with
  | (some .skipDir, st1) => (none, st1)
  | r => r

/-- `walkFS` (sitescan.go:311-363): a non-nil error escaping
`filepath.Walk` is `log.Fatal` — embedded as `.error`. -/
def walkFS (bp : String) (root : Entry) (st : WalkSt) :
    Except LErr WalkSt :=
  match goWalk bp root st with
  | (some (.fail e), _) => .error e
  | (none, st1) => .ok st1
  | (some .skipDir, st1) => .ok st1

mutual
/-- Denotation of the walk of one child entry whose relative path is
`pre ++ name`: the listing error is considered before anything else (a
permission error silently drops the subtree, any other error is fatal),
hidden entries contribute nothing, a visible file contributes one entry
and a visible directory contributes its own entry (key with trailing
"/", value without) followed by its children's entries. -/
def specEntry (pre : String) (e : Entry) : Except LErr SiteMap :=
  match e with
  | .file n => if goHasPrefix n "." then .ok [] else .ok [(pre ++ n, pre ++ n)]
  | .dir n lerr cs =>
    match lerr with
    | some .perm => .ok []
    | some .other => .error .other
    | none =>
      if goHasPrefix n "." then .ok []
      else
        match specChildren (pre ++ n ++ "/") cs with
        | .error e => .error e
        | .ok l => .ok ((pre ++ n ++ "/", pre ++ n) :: l)
/-- Denotation of a sibling list: concatenation, with the first fatal
error winning. -/
def specChildren (pre : String) (cs : EntryList) : Except LErr SiteMap :=
  match cs with
  | .nil => .ok []
  | .cons c rest =>
    match specEntry pre c with
    | .error e => .error e
    | .ok l1 =>
      match specChildren pre rest with
      | .error e => .error e
      | .ok l2 => .ok (l1 ++ l2)
end

/-- Denotation of a whole walk: the root entry itself is never inserted
(it is the base path); its children are walked with relative prefix "".
A listing error on the root follows the same permission/other policy. -/
def specRoot : Entry → Except LErr SiteMap
  | .file _ => .ok []
  | .dir _ lerr cs =>
    match lerr with
    | some .perm => .ok []
    | some .other => .error .other
    | none => specChildren "" cs

theorem goTrimPrefix_append (pre s : String) : goTrimPrefix (pre ++ s) pre = s := by
  have hpre : pre.data.isPrefixOf (pre ++ s).data = true := by
    rw [String.data_append]
    exact List.isPrefixOf_iff_prefix.mpr (List.prefix_append ..)
  unfold goTrimPrefix
  rw [hpre]
  simp only [if_true]
  apply String.ext
  show (pre ++ s).data.drop pre.data.length = s.data
  rw [String.data_append, List.drop_left]

theorem append_slash_ne (bp x : String) : bp ++ "/" ++ x ≠ bp := by
  intro h
  have h2 := congrArg String.length h
  rw [String.length_append, String.length_append] at h2
  have h1 : ("/" : String).length = 1 := rfl
  omega

mutual
theorem walkEntry_char (e : Entry) (bp pre : String) (st : WalkSt) (path : String)
    (hpath : path = bp ++ "/" ++ (pre ++ e.name)) :
    (∀ l, specEntry pre e = .ok l →
      walkEntry bp path e st = (none, (st.1 ++ l, st.2 + l.length))
      ∨ (e.isDir = true ∧ l = [] ∧ walkEntry bp path e st = (some .skipDir, st)))
    ∧ (∀ er, specEntry pre e = .error er →
      (walkEntry bp path e st).1 = some (.fail er)) := by
  have hne : path ≠ bp := by rw [hpath]; exact append_slash_ne _ _
  cases e with
  | file n =>
    constructor
    · intro l hl
      left
      unfold specEntry at hl
      by_cases hh : goHasPrefix n "."
      · rw [if_pos hh] at hl
        cases hl
        simp [walkEntry, walkFn, hne, hh]
      · rw [if_neg hh] at hl
        cases hl
        have hrel : goTrimPrefix path (bp ++ "/") = pre ++ n := by
          rw [hpath]; exact goTrimPrefix_append ..
        simp [walkEntry, walkFn, hne, hh, hrel, Entry.name] at *
    · intro er her
      unfold specEntry at her
      by_cases hh : goHasPrefix n "." <;> simp [hh] at her
  | dir n lerr cs =>
    cases lerr with
    | some le =>
      cases le with
      | perm =>
        constructor
        · intro l hl
          unfold specEntry at hl
          cases hl
          right
          exact ⟨rfl, rfl, by simp [walkEntry, walkFn]⟩
        · intro er her
          unfold specEntry at her
          cases her
      | other =>
        constructor
        · intro l hl
          unfold specEntry at hl
          cases hl
        · intro er her
          unfold specEntry at her
          cases her
          simp [walkEntry, walkFn]
    | none =>
      by_cases hh : goHasPrefix n "."
      · constructor
        · intro l hl
          unfold specEntry at hl
          rw [if_pos hh] at hl
          cases hl
          right
          refine ⟨rfl, rfl, ?_⟩
          simp [walkEntry, walkFn, hne, hh, Entry.name]
        · intro er her
          unfold specEntry at her
          rw [if_pos hh] at her
          cases her
      · have hrel : goTrimPrefix path (bp ++ "/") = pre ++ n := by
          rw [hpath]; exact goTrimPrefix_append ..
        have hwf : walkFn bp path n true none st
            = (none, (st.1 ++ [(pre ++ n ++ "/", pre ++ n)], st.2 + 1)) := by
          simp [walkFn, hne, hh, hrel]
        have hstep : walkEntry bp path (.dir n none cs) st
            = walkChildren bp path cs
                (st.1 ++ [(pre ++ n ++ "/", pre ++ n)], st.2 + 1) := by
          simp only [walkEntry, hwf]
        have hp : ∀ m, path ++ "/" ++ m = bp ++ "/" ++ ((pre ++ n ++ "/") ++ m) := by
          intro m
          rw [hpath]
          simp [String.append_assoc, Entry.name]
        have ihc := walkChildren_char cs bp (pre ++ n ++ "/")
          (st.1 ++ [(pre ++ n ++ "/", pre ++ n)], st.2 + 1) path hp
        constructor
        · intro l hl
          left
          unfold specEntry at hl
          rw [if_neg hh] at hl
          cases hsc : specChildren (pre ++ n ++ "/") cs with
          | error e2 => rw [hsc] at hl; cases hl
          | ok l2 =>
            rw [hsc] at hl
            cases hl
            rw [hstep, ihc.1 l2 hsc]
            simp [List.append_assoc]
            omega
        · intro er her
          unfold specEntry at her
          rw [if_neg hh] at her
          cases hsc : specChildren (pre ++ n ++ "/") cs with
          | ok l2 => rw [hsc] at her; cases her
          | error e2 =>
            rw [hsc] at her
            cases her
            rw [hstep]
            exact ihc.2 _ hsc

theorem walkChildren_char (cs : EntryList) (bp pre : String) (st : WalkSt)
    (p : String)
    (hp : ∀ m, p ++ "/" ++ m = bp ++ "/" ++ (pre ++ m)) :
    (∀ l, specChildren pre cs = .ok l →
      walkChildren bp p cs st = (none, (st.1 ++ l, st.2 + l.length)))
    ∧ (∀ er, specChildren pre cs = .error er →
      (walkChildren bp p cs st).1 = some (.fail er)) := by
  cases cs with
  | nil =>
    constructor
    · intro l hl
      unfold specChildren at hl
      cases hl
      simp [walkChildren]
    · intro er her
      unfold specChildren at her
      cases her
  | cons c rest =>
    have ihe := walkEntry_char c bp pre st (p ++ "/" ++ c.name) (hp c.name)
    cases hse : specEntry pre c with
    | error e =>
      have h1 := ihe.2 e hse
      constructor
      · intro l hl
        unfold specChildren at hl
        rw [hse] at hl
        cases hl
      · intro er her
        unfold specChildren at her
        rw [hse] at her
        cases her
        rcases hE : walkEntry bp (p ++ "/" ++ c.name) c st with ⟨w, st2⟩
        rw [hE] at h1
        simp at h1
        cases h1
        simp [walkChildren, hE]
    | ok l1 =>
      rcases ihe.1 l1 hse with hnone | ⟨hdir, hl1, hres⟩
      · have ihr := walkChildren_char rest bp pre
          (st.1 ++ l1, st.2 + l1.length) p hp
        constructor
        · intro l hl
          unfold specChildren at hl
          rw [hse] at hl
          cases hsr : specChildren pre rest with
          | error e2 => rw [hsr] at hl; cases hl
          | ok l2 =>
            rw [hsr] at hl
            cases hl
            unfold walkChildren
            rw [hnone]
            simp only []
            rw [ihr.1 l2 hsr]
            simp [List.append_assoc]
            omega
        · intro er her
          unfold specChildren at her
          rw [hse] at her
          cases hsr : specChildren pre rest with
          | ok l2 => rw [hsr] at her; cases her
          | error e2 =>
            rw [hsr] at her
            cases her
            unfold walkChildren
            rw [hnone]
            simp only []
            exact ihr.2 _ hsr
      · cases hl1
        have ihr := walkChildren_char rest bp pre st p hp
        constructor
        · intro l hl
          unfold specChildren at hl
          rw [hse] at hl
          cases hsr : specChildren pre rest with
          | error e2 => rw [hsr] at hl; cases hl
          | ok l2 =>
            rw [hsr] at hl
            cases hl
            unfold walkChildren
            rw [hres]
            simp only [hdir, if_true]
            rw [ihr.1 l2 hsr]
            simp
        · intro er her
          unfold specChildren at her
          rw [hse] at her
          cases hsr : specChildren pre rest with
          | ok l2 => rw [hsr] at her; cases her
          | error e2 =>
            rw [hsr] at her
            cases her
            unfold walkChildren
            rw [hres]
            simp only [hdir, if_true]
            exact ihr.2 _ hsr
end

theorem walkFS_char (bp : String) (root : Entry) (st : WalkSt) :
    walkFS bp root st
      = match specRoot root with
        | .ok l => .ok (st.1 ++ l, st.2 + l.length)
        | .error e => .error e := by
  cases root with
  | file n =>
    simp [walkFS, goWalk, walkEntry, walkFn, specRoot]
  | dir n lerr cs =>
    cases lerr with
    | some le =>
      cases le <;> simp [walkFS, goWalk, walkEntry, walkFn, specRoot]
    | none =>
      have hp : ∀ m, bp ++ "/" ++ m = bp ++ "/" ++ ("" ++ m) := by
        intro m; rw [String.empty_append]
      have ihc := walkChildren_char cs bp "" st bp hp
      have hstep : walkEntry bp bp (.dir n none cs) st
          = walkChildren bp bp cs st := by
        simp [walkEntry, walkFn]
      cases hsc : specChildren "" cs with
      | ok l =>
        have h1 := ihc.1 l hsc
        simp [walkFS, goWalk, hstep, h1, hsc, specRoot]
      | error e =>
        have h2 := ihc.2 e hsc
        rcases hE : walkChildren bp bp cs st with ⟨w, st2⟩
        rw [hE] at h2
        simp at h2
        cases h2
        simp [walkFS, goWalk, hstep, hE, hsc, specRoot]

mutual
/-- Removes every hidden entry (base name starting with ".") from a
tree, together with its whole subtree. -/
def pruneHidden : Entry → Entry
  | .file n => .file n
  | .dir n lerr cs => .dir n lerr (pruneHiddenList cs)
/-- List part of `pruneHidden`. -/
def pruneHiddenList : EntryList → EntryList
  | .nil => .nil
  | .cons c rest =>
    if goHasPrefix c.name "." then pruneHiddenList rest
    else .cons (pruneHidden c) (pruneHiddenList rest)
end

mutual
/-- True when no directory anywhere in the tree has a non-permission
listing error (those are fatal to the walk). -/
def noOtherErr : Entry → Bool
  | .file _ => true
  | .dir _ (some .other) _ => false
  | .dir _ _ cs => noOtherErrList cs
/-- List part of `noOtherErr`. -/
def noOtherErrList : EntryList → Bool
  | .nil => true
  | .cons c rest => noOtherErr c && noOtherErrList rest
end

mutual
theorem specEntry_pruneHidden (e : Entry) (pre : String)
    (h : noOtherErr e = true) :
    specEntry pre (pruneHidden e) = specEntry pre e := by
  cases e with
  | file n => rfl
  | dir n lerr cs =>
    cases lerr with
    | some le =>
      cases le with
      | perm => rfl
      | other => exact absurd h (by simp [noOtherErr])
    | none =>
      have hcs : noOtherErrList cs = true := by simpa [noOtherErr] using h
      by_cases hh : goHasPrefix n "."
      · simp [pruneHidden, specEntry, hh]
      · simp only [pruneHidden, specEntry, if_neg hh]
        rw [specChildren_pruneHidden cs (pre ++ n ++ "/") hcs]

theorem specChildren_pruneHidden (cs : EntryList) (pre : String)
    (h : noOtherErrList cs = true) :
    specChildren pre (pruneHiddenList cs) = specChildren pre cs := by
  cases cs with
  | nil => rfl
  | cons c rest =>
    have hc : noOtherErr c = true := by
      have h2 := h; simp [noOtherErrList] at h2; exact h2.1
    have hr : noOtherErrList rest = true := by
      have h2 := h; simp [noOtherErrList] at h2; exact h2.2
    by_cases hh : goHasPrefix c.name "."
    · have hok : specEntry pre c = .ok [] := by
        cases c with
        | file m =>
          simp [Entry.name] at hh
          simp [specEntry, hh]
        | dir m lerr gs =>
          cases lerr with
          | some le =>
            cases le with
            | perm => rfl
            | other => exact absurd hc (by simp [noOtherErr])
          | none =>
            simp [Entry.name] at hh
            simp [specEntry, hh]
      simp only [pruneHiddenList, if_pos hh]
      rw [specChildren_pruneHidden rest pre hr]
      simp only [specChildren, hok]
      cases hsr : specChildren pre rest <;> simp [hsr]
    · simp only [pruneHiddenList, if_neg hh]
      simp only [specChildren]
      rw [specEntry_pruneHidden c pre hc,
        specChildren_pruneHidden rest pre hr]
end

theorem specRoot_pruneHidden (t : Entry) (h : noOtherErr t = true) :
    specRoot (pruneHidden t) = specRoot t := by
  cases t with
  | file n => rfl
  | dir n lerr cs =>
    cases lerr with
    | some le =>
      cases le with
      | perm => rfl
      | other => exact absurd h (by simp [noOtherErr])
    | none =>
      have hcs : noOtherErrList cs = true := by simpa [noOtherErr] using h
      simp only [pruneHidden, specRoot]
      exact specChildren_pruneHidden cs "" hcs

/-- C5 — every entry whose base name starts with the hidden-file marker
"." is excluded from the map and from the counter, and when such a
hidden entry is a directory its entire subtree is skipped, not merely
the entry itself: on any tree free of fatal listing errors, the walk of
the tree and the walk of the tree with all hidden entries (and their
whole subtrees) removed are indistinguishable — same map, same counter,
same outcome. -/
theorem walkFS_hidden_excluded (bp : String) (t : Entry) (st : WalkSt)
    (h : noOtherErr t = true) :
    walkFS bp t st = walkFS bp (pruneHidden t) st := by
  rw [walkFS_char, walkFS_char, specRoot_pruneHidden t h]

/-- A small tree with a hidden file, a hidden directory (with a child
inside it), and two visible entries. -/
def hiddenDemo : Entry :=
  .dir "root" none (.cons (.file ".secret")
    (.cons (.dir ".git" none (.cons (.file "config") .nil))
      (.cons (.file "a.txt")
        (.cons (.dir "sub" none (.cons (.file "b.txt") .nil)) .nil))))

/-- C5 witness — the walk of `hiddenDemo` coincides with the walk of
its hidden-pruned version, and concretely produces only the visible
entries. -/
theorem walkFS_hidden_excluded_witness :
    noOtherErr hiddenDemo = true
    ∧ walkFS "base" hiddenDemo ([], 0)
        = walkFS "base" (pruneHidden hiddenDemo) ([], 0)
    ∧ walkFS "base" hiddenDemo ([], 0)
        = .ok ([("a.txt", "a.txt"), ("sub/", "sub"),
                ("sub/b.txt", "sub/b.txt")], 3) :=
  ⟨by decide,
   walkFS_hidden_excluded "base" hiddenDemo ([], 0) (by decide),
   by rfl⟩

mutual
/-- Removes every directory whose listing failed with a permission
error, together with its whole subtree. -/
def prunePerm : Entry → Entry
  | .file n => .file n
  | .dir n lerr cs => .dir n lerr (prunePermList cs)
/-- List part of `prunePerm`. -/
def prunePermList : EntryList → EntryList
  | .nil => .nil
  | .cons (.dir _ (some .perm) _) rest => prunePermList rest
  | .cons c rest => .cons (prunePerm c) (prunePermList rest)
end

mutual
theorem specEntry_prunePerm (e : Entry) (pre : String) :
    specEntry pre (prunePerm e) = specEntry pre e := by
  cases e with
  | file n => rfl
  | dir n lerr cs =>
    cases lerr with
    | some le => cases le <;> rfl
    | none =>
      by_cases hh : goHasPrefix n "."
      · simp [prunePerm, specEntry, hh]
      · simp only [prunePerm, specEntry, if_neg hh]
        rw [specChildren_prunePerm cs (pre ++ n ++ "/")]

theorem specChildren_prunePerm (cs : EntryList) (pre : String) :
    specChildren pre (prunePermList cs) = specChildren pre cs := by
  cases cs with
  | nil => rfl
  | cons c rest =>
    cases c with
    | file m =>
      simp only [prunePermList, specChildren]
      rw [specEntry_prunePerm (.file m) pre, specChildren_prunePerm rest pre]
    | dir m lerr gs =>
      cases lerr with
      | some le =>
        cases le with
        | perm =>
          simp only [prunePermList]
          rw [specChildren_prunePerm rest pre]
          simp only [specChildren, specEntry]
          cases hsr : specChildren pre rest <;> simp [hsr]
        | other =>
          simp only [prunePermList, specChildren]
          rw [specEntry_prunePerm (.dir m (some .other) gs) pre,
            specChildren_prunePerm rest pre]
      | none =>
        simp only [prunePermList, specChildren]
        rw [specEntry_prunePerm (.dir m none gs) pre,
          specChildren_prunePerm rest pre]
end

theorem specRoot_prunePerm (t : Entry) :
    specRoot (prunePerm t) = specRoot t := by
  cases t with
  | file n => rfl
  | dir n lerr cs =>
    cases lerr with
    | some le => cases le <;> rfl
    | none =>
      simp only [prunePerm, specRoot]
      exact specChildren_prunePerm cs ""

mutual
theorem specEntry_error_other (e : Entry) (pre : String) (er : LErr)
    (h : specEntry pre e = .error er) : er = .other := by
  cases e with
  | file n => by_cases hh : goHasPrefix n "." <;> simp [specEntry, hh] at h
  | dir n lerr cs =>
    cases lerr with
    | some le =>
      cases le with
      | perm => simp [specEntry] at h
      | other =>
        rw [show specEntry pre (.dir n (some .other) cs)
            = Except.error LErr.other from rfl] at h
        cases h
        rfl
    | none =>
      by_cases hh : goHasPrefix n "."
      · simp [specEntry, hh] at h
      · simp only [specEntry, if_neg hh] at h
        cases hsc : specChildren (pre ++ n ++ "/") cs with
        | ok l => rw [hsc] at h; cases h
        | error e2 =>
          rw [hsc] at h
          cases h
          exact specChildren_error_other cs (pre ++ n ++ "/") er hsc

theorem specChildren_error_other (cs : EntryList) (pre : String) (er : LErr)
    (h : specChildren pre cs = .error er) : er = .other := by
  cases cs with
  | nil => simp [specChildren] at h
  | cons c rest =>
    simp only [specChildren] at h
    cases hse : specEntry pre c with
    | error e2 =>
      rw [hse] at h
      cases h
      exact specEntry_error_other c pre er hse
    | ok l1 =>
      rw [hse] at h
      cases hsr : specChildren pre rest with
      | error e2 =>
        rw [hsr] at h
        cases h
        exact specChildren_error_other rest pre er hsr
      | ok l2 => rw [hsr] at h; cases h
end

/-- C6 — a permission error listing a subdirectory is non-fatal and
skips exactly that subtree (walking the tree is indistinguishable from
walking the tree with all permission-failing directories removed), while
any other listing error reached by the walk aborts the whole program
(`walkFS` is fatal, and only non-permission errors ever abort). -/
theorem walkFS_perm_policy (bp : String) (t : Entry) (st : WalkSt) :
    walkFS bp t st = walkFS bp (prunePerm t) st
    ∧ (∀ e, specRoot t = .error e →
        e = LErr.other ∧ walkFS bp t st = .error e) := by
  constructor
  · rw [walkFS_char, walkFS_char, specRoot_prunePerm]
  · intro e he
    refine ⟨?_, ?_⟩
    · cases t with
      | file n => simp [specRoot] at he
      | dir n lerr cs =>
        cases lerr with
        | some le =>
          cases le with
          | perm => simp [specRoot] at he
          | other =>
            rw [show specRoot (.dir n (some .other) cs)
                = Except.error LErr.other from rfl] at he
            cases he
            rfl
        | none =>
          simp only [specRoot] at he
          exact specChildren_error_other cs "" e he
    · rw [walkFS_char, he]

/-- A tree with a permission-failing directory (whose subtree must be
skipped), a directory with a non-permission listing error (fatal), and a
visible file. -/
def permDemo : Entry :=
  .dir "r" none (.cons (.dir "locked" (some .perm) (.cons (.file "x") .nil))
    (.cons (.dir "bad" (some .other) .nil)
      (.cons (.file "a") .nil)))

/-- C6 witness — on `permDemo` the walk equals the walk of the
perm-pruned tree, and the non-permission listing error is fatal. -/
theorem walkFS_perm_policy_witness :
    walkFS "b" permDemo ([], 0) = walkFS "b" (prunePerm permDemo) ([], 0)
    ∧ (LErr.other = LErr.other
        ∧ walkFS "b" permDemo ([], 0) = .error LErr.other) :=
  ⟨(walkFS_perm_policy "b" permDemo ([], 0)).1,
   (walkFS_perm_policy "b" permDemo ([], 0)).2 LErr.other (by rfl)⟩

mutual
theorem specEntry_keyShape (e : Entry) (pre : String) (l : SiteMap)
    (h : specEntry pre e = .ok l) :
    ∀ kv ∈ l, kv.1 = kv.2 ∨ kv.1 = kv.2 ++ "/" := by
  cases e with
  | file n =>
    by_cases hh : goHasPrefix n "."
    · rw [show specEntry pre (.file n) = .ok [] by simp [specEntry, hh]] at h
      cases h
      intro kv hkv
      cases hkv
    · rw [show specEntry pre (.file n) = .ok [(pre ++ n, pre ++ n)] by
        simp [specEntry, hh]] at h
      cases h
      intro kv hkv
      cases hkv with
      | head => left; rfl
      | tail _ h1 => cases h1
  | dir n lerr cs =>
    cases lerr with
    | some le =>
      cases le with
      | perm =>
        rw [show specEntry pre (.dir n (some .perm) cs) = .ok [] from rfl] at h
        cases h
        intro kv hkv
        cases hkv
      | other =>
        rw [show specEntry pre (.dir n (some .other) cs)
            = Except.error LErr.other from rfl] at h
        cases h
    | none =>
      by_cases hh : goHasPrefix n "."
      · rw [show specEntry pre (.dir n none cs) = .ok [] by
          simp [specEntry, hh]] at h
        cases h
        intro kv hkv
        cases hkv
      · simp only [specEntry, if_neg hh] at h
        cases hsc : specChildren (pre ++ n ++ "/") cs with
        | error e2 => rw [hsc] at h; cases h
        | ok l2 =>
          rw [hsc] at h
          cases h
          intro kv hkv
          cases hkv with
          | head => right; rfl
          | tail _ h1 =>
            exact specChildren_keyShape cs (pre ++ n ++ "/") l2 hsc kv h1

theorem specChildren_keyShape (cs : EntryList) (pre : String) (l : SiteMap)
    (h : specChildren pre cs = .ok l) :
    ∀ kv ∈ l, kv.1 = kv.2 ∨ kv.1 = kv.2 ++ "/" := by
  cases cs with
  | nil =>
    rw [show specChildren pre .nil = .ok [] from rfl] at h
    cases h
    intro kv hkv
    cases hkv
  | cons c rest =>
    simp only [specChildren] at h
    cases hse : specEntry pre c with
    | error e2 => rw [hse] at h; cases h
    | ok l1 =>
      rw [hse] at h
      cases hsr : specChildren pre rest with
      | error e2 => rw [hsr] at h; cases h
      | ok l2 =>
        rw [hsr] at h
        cases h
        intro kv hkv
        rcases List.mem_append.mp hkv with h1 | h1
        · exact specEntry_keyShape c pre l1 hse kv h1
        · exact specChildren_keyShape rest pre l2 hsr kv h1
end

/-! ## `filepath.Join` and the join-faithful walk driver

Go's `filepath.Walk` visits a child at `filepath.Join(path, name)`, and
`Join` cleans the joined path (`Clean(path + "/" + name)`).  For clean
parent paths the result is the plain concatenation used by the driver
above, but e.g. for a slash-terminated base path `Join` removes the
doubled separator, so `strings.TrimPrefix(path, basepath + "/")` at
sitescan.go:348 misses and the full path is inserted as the key.  The
driver below embeds `Join` faithfully; `goClean` is a direct
translation of Go's `path.Clean` (the algorithm `filepath.Clean` runs
with separator "/"), with the output buffer kept in reverse order. -/

/-- The `out.w--` plus backtrack loop of the `out.w > dotdot` arm of
Go's `Clean` ".."-handling: with the buffer in reverse order, drop the
last character unconditionally, then keep dropping while the buffer is
longer than `dotdot` and the character just dropped was not a
separator (the terminating separator is dropped as well). -/
def popSegLoop (dotdot : Nat) : List Char → List Char
  | [] => []
  | c :: rest =>
    if dotdot < rest.length ∧ c ≠ '/' then popSegLoop dotdot rest else rest

/-- The scan loop of Go's `path.Clean`: skip separators, skip "."
elements, handle ".." elements (backtrack past the last copied element
when possible, emit ".." when not rooted, discard when rooted at the
barrier), and copy a normal element preceded by a separator whenever
the buffer is not at its start position.  The first argument is plain
recursion fuel: every iteration of the Go loop consumes at least one
character of `l`, so `goClean` passes `l.length` and the fuel never
runs out (the fuel-0 fallback returns `out`, the same result as the
exhausted-input case). -/
def cleanLoop (rooted : Bool) : Nat → List Char → List Char → Nat → List Char
  | 0, _, out, _ => out
  | Nat.succ fuel, l, out, dotdot =>
    match l with
    | [] => out
    | c :: cs =>
      if c = '/' then cleanLoop rooted fuel cs out dotdot
      else if c = '.' ∧ (cs = [] ∨ cs.head? = some '/') then
        cleanLoop rooted fuel cs out dotdot
      else if c = '.' ∧ cs.head? = some '.'
          ∧ (cs.tail = [] ∨ cs.tail.head? = some '/') then
        if dotdot < out.length then
          cleanLoop rooted fuel cs.tail (popSegLoop dotdot out) dotdot
        else if !rooted then
          let out2 := if out.length > 0 then '/' :: out else out
          cleanLoop rooted fuel cs.tail ('.' :: '.' :: out2)
            ('.' :: '.' :: out2).length
        else cleanLoop rooted fuel cs.tail out dotdot
      else
        let out2 := if (rooted ∧ out.length ≠ 1) ∨ (¬rooted ∧ out.length ≠ 0)
          then '/' :: out else out
        cleanLoop rooted fuel (cs.dropWhile (fun ch => !(ch == '/')))
          ((cs.takeWhile (fun ch => !(ch == '/'))).reverse ++ (c :: out2))
          dotdot

/-- Embedding of Go `filepath.Clean` for separator "/": the empty path
cleans to ".", a leading separator marks the path rooted (kept in the
buffer with the barrier at 1), and an empty output buffer yields ".". -/
def goClean (path : String) : String :=
  if path = "" then "."
  else
    let rooted := path.data.head? = some '/'
    let out :=
      if rooted then cleanLoop true path.data.tail.length path.data.tail ['/'] 1
      else cleanLoop false path.data.length path.data [] 0
    if out.length = 0 then "." else ⟨out.reverse⟩

/-- Embedding of Go `filepath.Join` on two elements: empty leading
elements are skipped, the rest joined with the separator and cleaned. -/
def goJoin (a b : String) : String :=
  if a = "" then (if b = "" then "" else goClean b)
  else goClean (a ++ "/" ++ b)

mutual
/-- The `filepath.walk` driver with `filepath.Join` embedded: identical
to `walkEntry` except that children are visited at
`goJoin path name`. -/
def walkEntryJoin (bp path : String) (e : Entry) (st : WalkSt) :
    Option WErr × WalkSt :=
  match e with
  | .file n => walkFn bp path n false none st
  | .dir n lerr cs =>
    match lerr, walkFn bp path n true lerr st with
    | none, (none, st2) => walkChildrenJoin bp path cs st2
    | _, r1 => r1
/-- Child loop of the join-faithful driver: each child is visited at
`goJoin path name` (Go: `filepath.Join(path, name)`). -/
def walkChildrenJoin (bp path : String) (cs : EntryList) (st : WalkSt) :
    Option WErr × WalkSt :=
  match cs with
  | .nil => (none, st)
  | .cons c rest =>
    match walkEntryJoin bp (goJoin path c.name) c st with
    | (none, st2) => walkChildrenJoin bp path rest st2
    | (some .skipDir, st2) =>
      if c.isDir then walkChildrenJoin bp path rest st2
      else (some .skipDir, st2)
    | (some (.fail e), st2) => (some (.fail e), st2)
end

/-- `filepath.Walk` over the join-faithful driver. -/
def goWalkJoin (bp : String) (root : Entry) (st : WalkSt) :
    Option WErr × WalkSt :=
  match walkEntryJoin bp bp root st with
  | (some .skipDir, st1) => (none, st1)
  | r => r

/-- `walkFS` over the join-faithful driver. -/
def walkFSJoin (bp : String) (root : Entry) (st : WalkSt) :
    Except LErr WalkSt :=
  match goWalkJoin bp root st with
  | (some (.fail e), _) => .error e
  | (none, st1) => .ok st1
  | (some .skipDir, st1) => .ok st1

mutual
/-- True when `filepath.Join` performs no cleaning on the path of this
child of the node at path `p`, nor anywhere below it. -/
def joinOkE (p : String) (c : Entry) : Bool :=
  (goJoin p c.name == p ++ "/" ++ c.name) &&
    (match c with
     | .file _ => true
     | .dir _ _ cs => joinOkL (p ++ "/" ++ c.name) cs)
/-- List part of `joinOkE`. -/
def joinOkL (p : String) (cs : EntryList) : Bool :=
  match cs with
  | .nil => true
  | .cons c rest => joinOkE p c && joinOkL p rest
end

/-- True when `filepath.Join` performs no cleaning on any path visited
below the node at `path` (for a root, below the base path). -/
def joinOkInner (path : String) (e : Entry) : Bool :=
  match e with
  | .file _ => true
  | .dir _ _ cs => joinOkL path cs

mutual
theorem walkEntryJoin_eq (e : Entry) (bp path : String) (st : WalkSt)
    (hj : joinOkInner path e = true) :
    walkEntryJoin bp path e st = walkEntry bp path e st := by
  cases e with
  | file n => rfl
  | dir n lerr cs =>
    have hcs : joinOkL path cs = true := by simpa [joinOkInner] using hj
    rcases hwf : walkFn bp path n true lerr st with ⟨w, st2⟩
    cases lerr with
    | some le => simp only [walkEntryJoin, walkEntry, hwf]
    | none =>
      cases w with
      | none =>
        simp only [walkEntryJoin, walkEntry, hwf]
        exact walkChildrenJoin_eq cs bp path st2 hcs
      | some werr => simp only [walkEntryJoin, walkEntry, hwf]

theorem walkChildrenJoin_eq (cs : EntryList) (bp p : String) (st : WalkSt)
    (hj : joinOkL p cs = true) :
    walkChildrenJoin bp p cs st = walkChildren bp p cs st := by
  cases cs with
  | nil => rfl
  | cons c rest =>
    have hc : joinOkE p c = true := by
      have h2 := hj; simp [joinOkL] at h2; exact h2.1
    have hr : joinOkL p rest = true := by
      have h2 := hj; simp [joinOkL] at h2; exact h2.2
    have hsplit : goJoin p c.name = p ++ "/" ++ c.name
        ∧ joinOkInner (p ++ "/" ++ c.name) c = true := by
      cases c with
      | file m =>
        simp only [joinOkE, Entry.name, Bool.and_eq_true, beq_iff_eq,
          and_true] at hc
        exact ⟨hc, by simp [joinOkInner]⟩
      | dir m lerr gs =>
        simp only [joinOkE, Entry.name, Bool.and_eq_true, beq_iff_eq] at hc
        exact ⟨hc.1, by simpa [joinOkInner, Entry.name] using hc.2⟩
    obtain ⟨hstab, hinner⟩ := hsplit
    have he := walkEntryJoin_eq c bp (p ++ "/" ++ c.name) st hinner
    rcases hE : walkEntry bp (p ++ "/" ++ c.name) c st with ⟨w, st2⟩
    rw [hE] at he
    simp only [walkChildrenJoin, walkChildren, hstab, he, hE]
    cases w with
    | none => exact walkChildrenJoin_eq rest bp p st2 hr
    | some werr =>
      cases werr with
      | skipDir =>
        by_cases hd : c.isDir = true
        · simp only [hd, if_true]
          exact walkChildrenJoin_eq rest bp p st2 hr
        · simp [hd]
      | fail e2 => rfl
end

theorem walkFSJoin_eq (bp : String) (t : Entry) (st : WalkSt)
    (hj : joinOkInner bp t = true) :
    walkFSJoin bp t st = walkFS bp t st := by
  have he := walkEntryJoin_eq t bp bp st hj
  simp only [walkFSJoin, walkFS, goWalkJoin, goWalk, he]

/-- C10 counterexample — for the slash-terminated base path "/data/",
`filepath.Join` cleans the only child's path to "/data/x" while
`basepath ++ "/"` is "/data//", so `strings.TrimPrefix`
(sitescan.go:348) misses and the inserted key is the full path
"/data/x", not the entry's path relative to the base path ("x"): the
relative-key property fails at this base path. -/
theorem walkFSJoin_full_path_key :
    walkFSJoin "/data/" (.dir "data" none (.cons (.file "x") .nil)) ([], 0)
      = .ok ([("/data/x", "/data/x")], 1)
    ∧ ("/data/x" : String) ≠ "x" :=
  ⟨rfl, by decide⟩

/-- C10 (amended) — for every filesystem walk on which `filepath.Join`
performs no path cleaning (the joined path of every visited child is
the plain concatenation — in particular for ordinary base paths with no
trailing separator and ordinary entry names): the base path itself is
never inserted or counted (the result extends the incoming state
exactly by the entries of the root's proper descendants), every
inserted key is the entry's path relative to the base path (built from
the name segments below the root), a directory entry's key is exactly
its value plus one trailing "/" (file keys equal their values), and the
counter grows by exactly one per inserted entry. -/
theorem walkFSJoin_relative_keys (bp : String) (t : Entry) (st : WalkSt)
    (hj : joinOkInner bp t = true) :
    walkFSJoin bp t st
      = (specRoot t).map (fun l => (st.1 ++ l, st.2 + l.length))
    ∧ (∀ l, specRoot t = .ok l →
        ∀ kv ∈ l, kv.1 = kv.2 ∨ kv.1 = kv.2 ++ "/") := by
  constructor
  · rw [walkFSJoin_eq bp t st hj, walkFS_char]
    cases specRoot t <;> simp [Except.map]
  · intro l hl
    cases t with
    | file n =>
      rw [show specRoot (.file n) = .ok [] from rfl] at hl
      cases hl
      intro kv hkv
      cases hkv
    | dir n lerr cs =>
      cases lerr with
      | some le =>
        cases le with
        | perm =>
          rw [show specRoot (.dir n (some .perm) cs) = .ok [] from rfl] at hl
          cases hl
          intro kv hkv
          cases hkv
        | other =>
          rw [show specRoot (.dir n (some .other) cs)
              = Except.error LErr.other from rfl] at hl
          cases hl
      | none =>
        simp only [specRoot] at hl
        exact specChildren_keyShape cs "" l hl

/-- A small tree for the C10 witness: one file and one directory with a
nested file, walked from the clean base path "/data". -/
def joinDemo : Entry :=
  .dir "data" none (.cons (.file "x")
    (.cons (.dir "d" none (.cons (.file "y") .nil)) .nil))

/-- C10 witness — from the clean base path "/data" (no trailing
separator) `filepath.Join` cleans nothing, and the walk yields exactly
the relative-keyed entries with the directory key carrying the trailing
separator and the counter equal to the number of entries. -/
theorem walkFSJoin_relative_keys_witness :
    joinOkInner "/data" joinDemo = true
    ∧ walkFSJoin "/data" joinDemo ([], 0)
        = (specRoot joinDemo).map (fun l => ([] ++ l, 0 + l.length))
    ∧ walkFSJoin "/data" joinDemo ([], 0)
        = .ok ([("x", "x"), ("d/", "d"), ("d/y", "d/y")], 3)
    ∧ (("d/", "d").1 = ("d/", "d").2 ∨ ("d/", "d").1 = ("d/", "d").2 ++ "/") :=
  ⟨by decide,
   (walkFSJoin_relative_keys "/data" joinDemo ([], 0) (by decide)).1,
   by rfl,
   (walkFSJoin_relative_keys "/data" joinDemo ([], 0) (by decide)).2
     [("x", "x"), ("d/", "d"), ("d/y", "d/y")] (by rfl)
     ("d/", "d") (by decide)⟩

/-! ## Reconciliation worker (`downloadWorker`, sitescan.go:438-560)

The worker's effects on the outside world are embedded explicitly: a
small filesystem state (file contents by path, existing directories), a
trace of the mutating calls it issues, and the console messages it
prints.  Outcomes that depend on the environment (`os.Link` failing
cross-device, the HTTP download result) are oracle parameters. -/

/-- Mutating calls a worker can issue, recorded as a trace. -/
inductive Eff where
  | removeE (p : String)
  | mkdirAllE (p : String)
  | linkE (src dst : String)
  | createE (p : String)
  | copyE
  | renameE (a b : String)
  | chmodE (p : String)
  | httpDownloadE (u : String)
deriving DecidableEq

/-- Console messages a worker prints (`fmt.Printf` calls). -/
inductive Log where
  | skipDirL (id : Nat) (f : String)
  | skipDlL (id : Nat) (f : String)
  | startingL (id : Nat) (f : String)
  | downloadingL (id : Nat) (f : String)
  | finishedL (id : Nat) (f : String)
  | errorL (id : Nat) (f : String)
deriving DecidableEq

/-- The filesystem a worker manipulates: file contents by path and the
set of existing directories. -/
structure FS where
  files : List (String × List Nat)
  dirs : List String
deriving DecidableEq

/-- Content of the file at `p`, if it exists. -/
def getFile (fs : FS) (p : String) : Option (List Nat) :=
  (fs.files.find? (fun kv => kv.1 == p)).map (fun kv => kv.2)

/-- Create/overwrite the file at `p` with content `bs`. -/
def setFile (fs : FS) (p : String) (bs : List Nat) : FS :=
  { fs with files := (p, bs) :: fs.files.filter (fun kv => kv.1 != p) }

/-- Remove the file at `p` (no error if absent, matching `_ = os.Remove`). -/
def rmFile (fs : FS) (p : String) : FS :=
  { fs with files := fs.files.filter (fun kv => kv.1 != p) }

/-- Embedding of Go `filepath.Dir` for the clean paths the worker
builds: everything before the last "/", or "." when there is none. -/
def dirOf (p : String) : String :=
  if p.data.contains '/' then
    String.mk ((p.data.reverse.dropWhile (fun c => !(c == '/'))).drop 1).reverse
  else "."

/-- Environment oracles: whether `os.Link src dst` fails (e.g.
cross-device), whether a grab download succeeds, and what body it
fetches. -/
structure WEnv where
  linkFails : String → String → Bool
  httpOK : String → Bool
  httpBody : String → List Nat

/-- The shared tail of a worker iteration (sitescan.go:548-553):
`os.Rename(localpath+file+dlSuffix, localpath+file)` — on failure only
a message is printed and the loop continues — followed by
`os.Chmod(localpath+file, 0777)` whose error is ignored. -/
def renameChmod (id : Nat) (localpath file : String) (fs : FS)
    (effs : List Eff) (logs : List Log) : FS × List Eff × List Log × Bool :=
  let a := localpath ++ file ++ dlSuffix
  let b := localpath ++ file
  match getFile fs a with
  | some c =>
    (setFile (rmFile fs a) b c,
     effs ++ [Eff.renameE a b, Eff.chmodE b], logs, false)
  | none =>
    (fs, effs ++ [Eff.renameE a b, Eff.chmodE b],
     logs ++ [.errorL id file], false)

/-- Embedding of one iteration of the `downloadWorker` loop
(sitescan.go:440-557) for the job `file`.  The returned Bool is true
when the iteration executed `break` (ending the worker's loop).  The
embedding mirrors the source exactly, including two quirks: the
pre-clean `os.Remove(file + dlSuffix)` misses the `localpath` prefix,
and the copy fallback calls `io.Copy(source, target)` with destination
and source swapped — `target` was just created empty, so the copy reads
zero bytes from it, reports no error, and writes nothing into the temp
file. -/
def processJob (env : WEnv) (id : Nat) (dryrun : Bool)
    (localpath remotepath file : String) (fs : FS) :
    FS × List Eff × List Log × Bool :=
  if goHasSuffix file "/" then (fs, [], [.skipDirL id file], false)
  else if goHasSuffix file dlSuffix then (fs, [], [.skipDlL id file], false)
  else
    let logs0 := [Log.startingL id file]
    if dryrun then (fs, [], logs0, false)
    else if goHasPrefix remotepath "http" then
      let u := remotepath ++ file
      if env.httpOK u then
        renameChmod id localpath file
          (setFile fs (localpath ++ file ++ dlSuffix) (env.httpBody u))
          [Eff.httpDownloadE u]
          (logs0 ++ [.downloadingL id file, .finishedL id file])
      else
        (fs, [Eff.httpDownloadE u],
         logs0 ++ [.downloadingL id file, .errorL id file], true)
    else
      let targetfile := localpath ++ file
      let targetdir := dirOf targetfile
      if targetdir = "." then (fs, [], logs0 ++ [.errorL id file], true)
      else
        let fs1 := rmFile fs (file ++ dlSuffix)
        let effs1 := [Eff.removeE (file ++ dlSuffix)]
        let fs2 := if fs1.dirs.contains targetdir then fs1
          else { fs1 with dirs := targetdir :: fs1.dirs }
        let effs2 := if fs1.dirs.contains targetdir then effs1
          else effs1 ++ [Eff.mkdirAllE targetdir]
        match (if env.linkFails (remotepath ++ file) targetfile then none
               else getFile fs2 (remotepath ++ file)) with
        | some content =>
          renameChmod id localpath file (setFile fs2 targetfile content)
            (effs2 ++ [Eff.linkE (remotepath ++ file) targetfile]) logs0
        | none =>
          match getFile fs2 (remotepath ++ file) with
          | none => (fs2, effs2, logs0 ++ [.errorL id file], true)
          | some _src =>
            renameChmod id localpath file
              (setFile fs2 (targetfile ++ dlSuffix) [])
              (effs2 ++ [Eff.createE (targetfile ++ dlSuffix), Eff.copyE])
              logs0

/-- The `downloadWorker` loop over its job queue (a `break` stops the
remaining jobs for this worker). -/
def workerRun (env : WEnv) (id : Nat) (dryrun : Bool)
    (localpath remotepath : String) :
    List String → FS → FS × List Eff × List Log
  | [], fs => (fs, [], [])
  | f :: rest, fs =>
    match processJob env id dryrun localpath remotepath f fs with
    | (fs1, e1, l1, true) => (fs1, e1, l1)
    | (fs1, e1, l1, false) =>
      match workerRun env id dryrun localpath remotepath rest fs1 with
      | (fs2, e2, l2) => (fs2, e1 ++ e2, l1 ++ l2)

/-- What a dry-run iteration prints for one job. -/
def dryLog (id : Nat) (f : String) : List Log :=
  if goHasSuffix f "/" then [.skipDirL id f]
  else if goHasSuffix f dlSuffix then [.skipDlL id f]
  else [.startingL id f]

theorem processJob_dryrun (env : WEnv) (id : Nat) (lp rp f : String)
    (fs : FS) :
    processJob env id true lp rp f fs = (fs, [], dryLog id f, false) := by
  unfold processJob dryLog
  by_cases h1 : goHasSuffix f "/" <;> by_cases h2 : goHasSuffix f dlSuffix <;>
    simp [h1, h2]

/-- C7 — with the dry-run flag set the worker performs no filesystem
mutation and no network I/O on any job (the filesystem is unchanged and
the effect trace is empty); it only logs intent, never breaks, and every
file job in the queue (neither directory-named nor temp-suffixed) is
reported with its "starting" line. -/
theorem workerRun_dryrun (env : WEnv) (id : Nat) (lp rp : String)
    (jobs : List String) (fs : FS) :
    workerRun env id true lp rp jobs fs
      = (fs, [], jobs.foldr (fun f acc => dryLog id f ++ acc) [])
    ∧ (∀ f ∈ jobs, ¬goHasSuffix f "/" = true → ¬goHasSuffix f dlSuffix = true →
        Log.startingL id f ∈ jobs.foldr (fun f acc => dryLog id f ++ acc) []) := by
  constructor
  · induction jobs with
    | nil => rfl
    | cons f rest ih =>
      simp only [workerRun, processJob_dryrun, List.foldr_cons, ih,
        List.append_nil]
  · induction jobs with
    | nil => intro f hf; cases hf
    | cons g rest ih =>
      intro f hf h1 h2
      simp only [List.foldr_cons, List.mem_append]
      cases hf with
      | head =>
        left
        simp [dryLog, h1, h2]
      | tail _ hmem =>
        right
        exact ih f hmem h1 h2

/-- C7 witness — scenario 3: three file jobs (and a directory and a
temp-suffixed job that are skipped) in dry-run mode leave the
filesystem untouched, issue no effects, and every file job is
reported. -/
theorem workerRun_dryrun_witness :
    workerRun { linkFails := fun _ _ => false, httpOK := fun _ => true,
                httpBody := fun _ => [] } 1 true "dst/" "src/"
        ["a.mp3", "d/", "b.jpg", "x.sitescandl", "c.txt"]
        ⟨[("src/a.mp3", [7])], ["dst"]⟩
      = (⟨[("src/a.mp3", [7])], ["dst"]⟩, [],
         [.startingL 1 "a.mp3", .skipDirL 1 "d/", .startingL 1 "b.jpg",
          .skipDlL 1 "x.sitescandl", .startingL 1 "c.txt"])
    ∧ Log.startingL 1 "a.mp3" ∈
        (["a.mp3", "d/", "b.jpg", "x.sitescandl", "c.txt"].foldr
          (fun f acc => dryLog 1 f ++ acc) []) := by
  constructor
  · exact (workerRun_dryrun _ 1 "dst/" "src/" _ _).1.trans (by rfl)
  · exact (workerRun_dryrun
      { linkFails := fun _ _ => false, httpOK := fun _ => true,
        httpBody := fun _ => [] } 1 "dst/" "src/"
      ["a.mp3", "d/", "b.jpg", "x.sitescandl", "c.txt"]
      ⟨[("src/a.mp3", [7])], ["dst"]⟩).2 "a.mp3" (by decide)
      (by decide) (by decide)

/-- The environment of end-to-end scenario 4's forced cross-device
case: every hard-link attempt fails. -/
def crossDevEnv : WEnv :=
  { linkFails := fun _ _ => true, httpOK := fun _ => true,
    httpBody := fun _ => [] }

/-- Starting filesystem for the C2 exhibit: the source file
`src/a.mp3` holds three bytes and the destination directory exists. -/
def c2FS : FS := ⟨[("src/a.mp3", [1, 2, 3])], ["dst"]⟩

/-- C2 — exhibit of the swapped-argument copy fallback: with the hard
link forced to fail, the worker "copies" `src/a.mp3` (content
`[1, 2, 3]`) to `dst/a.mp3`, but because sitescan.go:537 calls
`io.Copy(source, target)` with destination and source reversed, zero
bytes are transferred and the temp file renamed into place is empty:
the destination exists under its final name with content `[]`, not
byte-identical to the source.  (No temp-suffixed file remains, and the
source is untouched.) -/
theorem workerRun_copy_swapped :
    getFile c2FS "src/a.mp3" = some [1, 2, 3]
    ∧ getFile (workerRun crossDevEnv 1 false "dst/" "src/" ["a.mp3"] c2FS).1
        "dst/a.mp3" = some []
    ∧ getFile (workerRun crossDevEnv 1 false "dst/" "src/" ["a.mp3"] c2FS).1
        "dst/a.mp3.sitescandl" = none
    ∧ getFile (workerRun crossDevEnv 1 false "dst/" "src/" ["a.mp3"] c2FS).1
        "src/a.mp3" = some [1, 2, 3] :=
  ⟨rfl, rfl, rfl, rfl⟩

/-! ## Timeout watcher and reconciliation manager
(`timeoutWorker` sitescan.go:562-581, `downloadManager`
sitescan.go:583-643, `writable.IsWritable` writable/writable.go:9-54)

The race inside `timeoutWorker`'s `select` is embedded as an explicit
parameter saying which arm fires first; the manager is embedded as the
ordered trace of the actions it performs, with its two abort paths as
`Except` errors. -/

/-- Which `select` arm fires first in `timeoutWorker`: the timeout
channel is closed (all workers finished and the manager closed it), a
value arrives on it, or the `time.After` timer fires. -/
inductive TWEvent where
  | chanClosed
  | chanValue
  | timerFired
deriving DecidableEq

/-- How `timeoutWorker` ends: it returns to its caller, or it
terminates the whole process with the given exit code. -/
inductive TWOut where
  | ret
  | exitProcess (code : Nat)
deriving DecidableEq

/-- Embedding of `timeoutWorker` (sitescan.go:562-581): a
closed-channel receive returns; a value receive falls out of the select
and returns as well; the timer firing calls `os.Exit(0)` — the process
terminates at once with exit code 0, without joining in-flight
workers. -/
def timeoutWorker : TWEvent → TWOut
  | .chanClosed => .ret
  | .chanValue => .ret
  | .timerFired => .exitProcess 0

/-- `IsWritable`'s view of one `os.Stat` result: directory bit and
permission bits of the mode. -/
structure FInfo where
  isDir : Bool
  perm : Nat
deriving DecidableEq

/-- Environment of the writability probe: the `os.Stat` result (`none`
is an error), the owner uid from `syscall.Stat` (`none` is an error),
and the effective uid of the process. -/
structure StatEnv where
  osStat : Option FInfo
  sysUid : Option Nat
  euid : Nat
deriving DecidableEq

/-- Embedding of `writable.IsWritable` (writable/writable.go:9-54),
returning `(isWritable, errOccurred)`.  Beyond existence, directory
mode and the owner-write permission bit (`mode & (1 << 7)`), the source
also requires `syscall.Stat` to succeed and the effective uid of the
process to equal the owner uid of the directory. -/
def IsWritable (e : StatEnv) : Bool × Bool :=
  match e.osStat with
  | none => (false, true)
  | some info =>
    if !info.isDir then (false, false)
    else if !(info.perm.testBit 7) then (false, false)
    else
      match e.sysUid with
      | none => (false, true)
      | some uid => if e.euid != uid then (false, false) else (true, false)

/-- Actions of `downloadManager`, in program order. -/
inductive MAct where
  | checkWritable
  | enqueue (f : String)
  | closeQueue
  | startWorker (i : Nat)
  | startTimeout
  | waitAll
  | closeTimechan
deriving DecidableEq

/-- How `downloadManager` aborts: `log.Fatal` on a probe error, or
`os.Exit(1)` when the target is not writable. -/
inductive MAbort where
  | fatalLog
  | exitOne
deriving DecidableEq

/-- Embedding of `downloadManager` (sitescan.go:583-643) as the trace
of the actions it performs: the writability precondition runs first and
aborts before anything else on failure; otherwise all jobs are queued,
the queue is closed, `throttle` workers are started, the timeout
watcher is started when a timeout is configured, the manager waits for
all workers, and then — when a timeout is configured — cancels the
watcher by closing its channel. -/
def downloadManager (e : StatEnv) (timeout throttle : Nat)
    (files : List String) : Except MAbort (List MAct) :=
  match IsWritable e with
  | (_, true) => .error .fatalLog
  | (false, false) => .error .exitOne
  | (true, false) =>
    .ok ([MAct.checkWritable]
      ++ files.map MAct.enqueue
      ++ [MAct.closeQueue]
      ++ (List.range throttle).map (fun i => MAct.startWorker (i + 1))
      ++ (if timeout > 0 then [MAct.startTimeout] else [])
      ++ [MAct.waitAll]
      ++ (if timeout > 0 then [MAct.closeTimechan] else []))

/-- C8 — with a timeout configured: when all workers finish first, the
manager cancels the watcher cleanly by closing its channel as its very
last action after the wait (so the watcher's closed-channel receive
makes it return); when the timeout elapses first, the watcher
terminates the process immediately with exit code 0, performing no
join of the in-flight workers. -/
theorem timeout_policy (e : StatEnv) (timeout throttle : Nat)
    (files : List String) (h : 0 < timeout) :
    (∀ tr, downloadManager e timeout throttle files = .ok tr →
      ∃ pre, tr = pre ++ [MAct.waitAll, MAct.closeTimechan])
    ∧ timeoutWorker .chanClosed = .ret
    ∧ timeoutWorker .timerFired = .exitProcess 0 := by
  refine ⟨?_, rfl, rfl⟩
  intro tr htr
  unfold downloadManager at htr
  rcases hw : IsWritable e with ⟨w, er⟩
  rw [hw] at htr
  cases w <;> cases er <;> simp at htr
  refine ⟨[MAct.checkWritable] ++ files.map MAct.enqueue ++ [MAct.closeQueue]
    ++ (List.range throttle).map (fun i => MAct.startWorker (i + 1))
    ++ [MAct.startTimeout], ?_⟩
  rw [← htr]
  simp [h, List.append_assoc]

/-- A writable-environment instance: the directory exists, the
owner-write bit (value 128) is set, and the caller owns it. -/
def okEnv : StatEnv := ⟨some ⟨true, 128⟩, some 0, 0⟩

/-- C8 witness — concrete run with a 5-hour timeout, one worker and one
job: the manager's trace ends in wait-then-close, and the two watcher
outcomes are as stated. -/
theorem timeout_policy_witness :
    (∃ pre, [MAct.checkWritable, MAct.enqueue "f", MAct.closeQueue,
        MAct.startWorker 1, MAct.startTimeout, MAct.waitAll,
        MAct.closeTimechan]
      = pre ++ [MAct.waitAll, MAct.closeTimechan])
    ∧ timeoutWorker .chanClosed = .ret
    ∧ timeoutWorker .timerFired = .exitProcess 0 :=
  ⟨(timeout_policy okEnv 5 1 ["f"] (by decide)).1 _ (by rfl),
   (timeout_policy okEnv 5 1 ["f"] (by decide)).2.1,
   (timeout_policy okEnv 5 1 ["f"] (by decide)).2.2⟩

/-- The writability precondition exactly as claim C9 words it
(modelled from the spec: "the path must exist, be a directory, and have
the owner write permission bit set"). -/
def claimPrecond (e : StatEnv) : Bool :=
  match e.osStat with
  | none => false
  | some info => info.isDir && info.perm.testBit 7

/-- The precondition `downloadManager` actually enforces through
`writable.IsWritable`: additionally the owner-uid probe must succeed
and the effective uid must equal the owner uid. -/
def fullPrecond (e : StatEnv) : Bool :=
  match e.osStat, e.sysUid with
  | some info, some uid => info.isDir && info.perm.testBit 7 && (e.euid == uid)
  | _, _ => false

/-- An environment satisfying the claim's three conditions (exists,
directory, owner-write bit set) whose directory is owned by uid 1000
while the process runs as uid 0. -/
def c9Env : StatEnv := ⟨some ⟨true, 128⟩, some 1000, 0⟩

/-- C9 counterexample — on `c9Env` the claim's precondition (exists ∧
directory ∧ owner-write bit) holds, yet the manager aborts with
`os.Exit(1)` before starting any worker, because `IsWritable` also
requires the effective uid to equal the directory's owner uid. -/
theorem downloadManager_owner_check :
    claimPrecond c9Env = true
    ∧ downloadManager c9Env 0 2 ["f"] = .error .exitOne :=
  ⟨by decide, rfl⟩

/-- C9 (amended) — the manager starts workers exactly when the full
writability precondition holds: the path exists, is a directory, has
the owner write permission bit set, the owner-uid probe succeeds, and
the process's effective uid equals the owner uid; on any failure it
aborts before any worker (and hence any transfer) is started. -/
theorem downloadManager_precondition (e : StatEnv) (timeout throttle : Nat)
    (files : List String) :
    (downloadManager e timeout throttle files).toOption.isSome
      = fullPrecond e := by
  rcases e with ⟨os, su, eu⟩
  cases os with
  | none => rfl
  | some info =>
    by_cases hd : info.isDir
    · by_cases hb : info.perm.testBit 7
      · cases su with
        | none =>
          simp [downloadManager, IsWritable, fullPrecond, hd, hb,
            Except.toOption]
        | some uid =>
          by_cases he : eu = uid
          · simp [downloadManager, IsWritable, fullPrecond, hd, hb, he,
              Except.toOption]
          · simp [downloadManager, IsWritable, fullPrecond, hd, hb, he,
              Except.toOption]
      · cases su <;>
          simp [downloadManager, IsWritable, fullPrecond, hd, hb,
            Except.toOption]
    · cases su <;>
        simp [downloadManager, IsWritable, fullPrecond, hd, Except.toOption]

end Sitescan
